import Mathlib

/-!
Verification development for the `ai-coder` repository (`src/ai_coder.py`).

Text is modelled as `List Char`; a Python string `s` corresponds to
`s.data : List Char`.  The functions below are shallow embeddings of the
Python functions in `src/ai_coder.py`, translated line by line:

* `splitlines`        — `str.splitlines()` (Python line-boundary set,
                        `\r\n` treated as a single boundary, no trailing
                        empty line for a trailing boundary);
* `isPySpace`         — the whitespace set of `str.lstrip()` / `str.strip()`;
* `chunk_code`        — `AICoder.chunk_code` (lines 148-198);
* `get_code_changes`  — `AICoder.get_code_changes` (lines 200-268), with the
                        OpenAI call abstracted as a fallible `engine`
                        parameter (`Except` models a raised exception);
* `update_file`       — `AICoder.update_file` (lines 270-296) viewed as a
                        transformer of the target file's content;
* `parse_github_path` — `GitHubAdapter.parse_github_path` (lines 32-59);
* `classify_reference`— the routing test in `main` (line 356) combined with
                        the URL-first ordering of `parse_github_path`.
-/

namespace AICoder

/-- Line-boundary characters of Python `str.splitlines()`:
`\n`, `\r` (with `\r\n` as one boundary), `\v`, `\f`, `\x1c`, `\x1d`,
`\x1e`, `\x85`, `\u2028`, `\u2029`. -/
def isLineBreak (c : Char) : Bool :=
  c = '\n' || c = '\r' || c = '\x0b' || c = '\x0c' ||
  c = '\x1c' || c = '\x1d' || c = '\x1e' ||
  c = '\x85' || c = '\u2028' || c = '\u2029'

/-- Whitespace characters stripped by Python `str.lstrip()` / `str.strip()`
(characters with `str.isspace() = True`). -/
def isPySpace (c : Char) : Bool :=
  c = ' ' || c = '\t' || c = '\n' || c = '\r' ||
  c = '\x0b' || c = '\x0c' ||
  c = '\x1c' || c = '\x1d' || c = '\x1e' || c = '\x1f' ||
  c = '\x85' || c = '\xa0' || c = '\u1680' ||
  (0x2000 ≤ c.toNat && c.toNat ≤ 0x200a) ||
  c = '\u2028' || c = '\u2029' || c = '\u202f' || c = '\u205f' || c = '\u3000'

/-- Worker for `splitlines`: `acc` is the line accumulated so far. A trailing
boundary does not produce a final empty line, matching Python. -/
def splitlinesGo : List Char → List Char → List (List Char)
  | acc, [] => if acc = [] then [] else [acc]
  | acc, '\r' :: '\n' :: cs => acc :: splitlinesGo [] cs
  | acc, c :: cs =>
      if isLineBreak c then acc :: splitlinesGo [] cs
      else splitlinesGo (acc ++ [c]) cs

/-- Python `str.splitlines()` on the `List Char` model. -/
def splitlines (cs : List Char) : List (List Char) :=
  splitlinesGo [] cs

/-- Python `sep.join(pieces)` for a one-character separator `sep`
(in the source always `'\n'.join`). -/
def joinN (sep : Char) : List (List Char) → List Char
  | [] => []
  | [l] => l
  | l :: l2 :: ls => l ++ sep :: joinN sep (l2 :: ls)

/-- Python `line.lstrip()`. -/
def lstrip (l : List Char) : List Char :=
  l.dropWhile isPySpace

/-- Python `line.strip()`: leading and trailing whitespace removed. -/
def pystrip (l : List Char) : List Char :=
  (lstrip l).rdropWhile isPySpace

/-- `len(line) - len(line.lstrip())` — the indentation width used by
`chunk_code` (line 171 of the source). -/
def indentOf (line : List Char) : Nat :=
  line.length - (lstrip line).length

/-- The loop state of `AICoder.chunk_code` (lines 158-162):
`chunks`, `current_chunk`, `current_indent`, `in_block`, `line_count`.
Emitted chunks are kept as lists of lines and joined with `'\n'` on output,
exactly as `'\n'.join(current_chunk)` does at the emission sites. -/
structure ChunkState where
  chunks : List (List (List Char) × Bool)
  current_chunk : List (List Char)
  current_indent : Nat
  in_block : Bool
  line_count : Nat
deriving Repr, DecidableEq

/-- Initial loop state of `chunk_code` (lines 158-162). -/
def initState : ChunkState :=
  ⟨[], [], 0, false, 0⟩

/-- Lines 173-179 of the source: cut a new chunk when the buffered line count
has reached `max_lines`, no block is open, and the candidate line's
indentation is at most `current_indent`; the (always-true) flag `True` is
attached to chunks emitted here. -/
def maybeCut (max_lines indent : Nat) (st : ChunkState) : ChunkState :=
  if max_lines ≤ st.line_count ∧ st.in_block = false ∧ indent ≤ st.current_indent then
    if st.current_chunk = [] then st
    else { st with chunks := st.chunks ++ [(st.current_chunk, true)],
                   current_chunk := [], line_count := 0 }
  else st

/-- Lines 181-187 of the source: a stripped line ending in `':'` opens a
block and records its indentation; otherwise a line at indentation at most
`current_indent` closes an open block and updates `current_indent`. -/
def trackBlock (indent : Nat) (stripped : List Char) (st : ChunkState) : ChunkState :=
  if stripped.getLast? = some ':' then
    { st with in_block := true, current_indent := indent }
  else if indent ≤ st.current_indent ∧ st.in_block = true then
    { st with in_block := false, current_indent := indent }
  else st

/-- Lines 189-190 of the source: append the line to the running buffer and
count it. -/
def appendLine (line : List Char) (st : ChunkState) : ChunkState :=
  { st with current_chunk := st.current_chunk ++ [line],
            line_count := st.line_count + 1 }

/-- One iteration of the `for line in lines` loop of `chunk_code`
(lines 164-190).  A line that is empty after `lstrip` is appended without
affecting any other state (lines 166-168). -/
def processLine (max_lines : Nat) (st : ChunkState) (line : List Char) : ChunkState :=
  if lstrip line = [] then
    { st with current_chunk := st.current_chunk ++ [line] }
  else
    appendLine line (trackBlock (indentOf line) (lstrip line) (maybeCut max_lines (indentOf line) st))

/-- The whole `for line in lines` loop of `chunk_code`. -/
def chunkLoop (max_lines : Nat) : ChunkState → List (List Char) → ChunkState
  | st, [] => st
  | st, line :: rest => chunkLoop max_lines (processLine max_lines st line) rest

/-- `AICoder.chunk_code` (lines 148-198).  Returns the list of
`(chunk_text, flag)` pairs: the whole text flagged `True` when it has at
most `max_lines` lines (lines 154-156); otherwise the loop output followed
by the final buffer flagged `not in_block` (lines 192-195). -/
def chunk_code (code : List Char) (max_lines : Nat) : List (List Char × Bool) :=
  let lines := splitlines code
  if lines.length ≤ max_lines then [(code, true)]
  else
    let st := chunkLoop max_lines initState lines
    let allChunks :=
      if st.current_chunk = [] then st.chunks
      else st.chunks ++ [(st.current_chunk, !st.in_block)]
    allChunks.map (fun p => (joinN '\n' p.1, p.2))

example : splitlines "a\nb".data = ["a".data, "b".data] := by decide
example : splitlines "a\nb\n".data = ["a".data, "b".data] := by decide
example : splitlines "a\r\nb".data = ["a".data, "b".data] := by decide
example : splitlines "\n".data = [[]] := by decide
example : splitlines "".data = [] := by decide
example : splitlines "a\n\nb".data = ["a".data, [], "b".data] := by decide

example : chunk_code "a\nb".data 2 = [("a\nb".data, true)] := by decide
example : chunk_code "a\nb".data 1 = [("a".data, true), ("b".data, true)] := by decide
example : chunk_code "a\nb\n".data 1 = [("a".data, true), ("b".data, true)] := by decide
example :
    chunk_code "a:\n\n    b\nc\nd".data 1 =
      [("a:\n\n    b\nc".data, true), ("d".data, true)] := by decide
example :
    chunk_code "a:\nb\n    c\nd".data 2 =
      [("a:\nb\n    c".data, true), ("d".data, true)] := by decide

/-- All lines owned by the state, in order: the lines of the already emitted
chunks followed by the running buffer. -/
def chunkLines (st : ChunkState) : List (List Char) :=
  (st.chunks.map Prod.fst).flatten ++ st.current_chunk

theorem trackBlock_chunks (i : Nat) (s : List Char) (st : ChunkState) :
    (trackBlock i s st).chunks = st.chunks := by
  unfold trackBlock; split_ifs <;> rfl

theorem trackBlock_current (i : Nat) (s : List Char) (st : ChunkState) :
    (trackBlock i s st).current_chunk = st.current_chunk := by
  unfold trackBlock; split_ifs <;> rfl

theorem maybeCut_chunkLines (ml i : Nat) (st : ChunkState) :
    chunkLines (maybeCut ml i st) = chunkLines st := by
  unfold maybeCut chunkLines
  split_ifs with h1 h2
  · rfl
  · simp
  · rfl

theorem processLine_chunkLines (ml : Nat) (st : ChunkState) (line : List Char) :
    chunkLines (processLine ml st line) = chunkLines st ++ [line] := by
  unfold processLine
  split_ifs with h
  · simp [chunkLines]
  · show chunkLines (appendLine _ _) = _
    unfold appendLine chunkLines
    rw [trackBlock_chunks, trackBlock_current]
    have := maybeCut_chunkLines ml (indentOf line) st
    unfold chunkLines at this
    simp only [← List.append_assoc, this]

theorem chunkLoop_chunkLines (ml : Nat) (lines : List (List Char)) (st : ChunkState) :
    chunkLines (chunkLoop ml st lines) = chunkLines st ++ lines := by
  induction lines generalizing st with
  | nil => simp [chunkLoop]
  | cons l rest ih =>
      rw [chunkLoop, ih, processLine_chunkLines, List.append_assoc]
      rfl

theorem processLine_current_ne (ml : Nat) (st : ChunkState) (line : List Char) :
    (processLine ml st line).current_chunk ≠ [] := by
  unfold processLine
  split_ifs with h
  · simp
  · show (appendLine _ _).current_chunk ≠ []
    unfold appendLine
    simp

theorem chunkLoop_current_ne (ml : Nat) (lines : List (List Char)) (st : ChunkState)
    (h : lines ≠ []) : (chunkLoop ml st lines).current_chunk ≠ [] := by
  induction lines generalizing st with
  | nil => exact absurd rfl h
  | cons l rest ih =>
      rw [chunkLoop]
      rcases rest with _ | ⟨r, rs⟩
      · rw [chunkLoop]; exact processLine_current_ne ml st l
      · exact ih (processLine ml st l) (by simp)

/-- Invariant on emitted chunks: every chunk in `st.chunks` is flagged `true`
and holds at least one line. -/
def goodChunks (st : ChunkState) : Prop :=
  ∀ c ∈ st.chunks, c.2 = true ∧ c.1 ≠ []

theorem processLine_goodChunks (ml : Nat) (st : ChunkState) (line : List Char)
    (h : goodChunks st) : goodChunks (processLine ml st line) := by
  unfold processLine
  split_ifs with hb
  · exact h
  · show goodChunks (appendLine _ _)
    unfold goodChunks at h ⊢
    unfold appendLine
    rw [trackBlock_chunks]
    unfold maybeCut
    split_ifs with h1 h2
    · exact h
    · intro c hc
      rcases List.mem_append.mp hc with hc | hc
      · exact h c hc
      · rcases List.mem_singleton.mp hc with rfl
        exact ⟨rfl, h2⟩
    · exact h

theorem chunkLoop_goodChunks (ml : Nat) (lines : List (List Char)) (st : ChunkState)
    (h : goodChunks st) : goodChunks (chunkLoop ml st lines) := by
  induction lines generalizing st with
  | nil => exact h
  | cons l rest ih => exact ih _ (processLine_goodChunks ml st l h)

theorem joinN_append (sep : Char) (A B : List (List Char)) (hA : A ≠ []) (hB : B ≠ []) :
    joinN sep (A ++ B) = joinN sep A ++ sep :: joinN sep B := by
  induction A with
  | nil => exact absurd rfl hA
  | cons a A ih =>
      rcases A with _ | ⟨a2, A'⟩
      · rcases B with _ | ⟨b, B'⟩
        · exact absurd rfl hB
        · simp [joinN]
      · have ih' := ih (List.cons_ne_nil a2 A')
        simp only [List.cons_append] at ih' ⊢
        simp only [joinN]
        rw [ih', List.append_assoc]
        rfl

theorem joinN_flatten (sep : Char) (segs : List (List (List Char)))
    (h : ∀ s ∈ segs, s ≠ []) :
    joinN sep (segs.map (joinN sep)) = joinN sep segs.flatten := by
  induction segs with
  | nil => rfl
  | cons s segs ih =>
      rcases segs with _ | ⟨s2, segs'⟩
      · simp [joinN]
      · have hs : s ≠ [] := h s (by simp)
        have hrest : (s2 :: segs').flatten ≠ [] := by
          have hs2 : s2 ≠ [] := h s2 (by simp)
          simp only [List.flatten_cons]
          intro hc
          exact hs2 (List.append_eq_nil.mp hc).1
        have ih' := ih (fun t ht => h t (List.mem_cons_of_mem s ht))
        rw [List.flatten_cons, joinN_append sep s ((s2 :: segs').flatten) hs hrest, ← ih']
        simp only [List.map_cons, joinN]

/-- In the chunked path (`max_lines < number of lines`), `chunk_code` is the
loop's chunk list followed by the final buffer flagged `not in_block`,
each joined with `'\n'`. -/
theorem chunk_code_loop_eq (code : List Char) (ml : Nat)
    (h : ml < (splitlines code).length) :
    chunk_code code ml =
      ((chunkLoop ml initState (splitlines code)).chunks
        ++ [((chunkLoop ml initState (splitlines code)).current_chunk,
             !(chunkLoop ml initState (splitlines code)).in_block)]).map
        (fun p => (joinN '\n' p.1, p.2)) := by
  have hne : splitlines code ≠ [] := by
    intro hc
    rw [hc] at h
    exact absurd h (by simp)
  have hcur := chunkLoop_current_ne ml (splitlines code) initState hne
  unfold chunk_code
  rw [if_neg (not_le.mpr h)]
  simp only [if_neg hcur]

/-- Core lossless property at the level of lines: the segment texts joined
with `'\n'` equal the input's lines joined with `'\n'`, for any chunked run. -/
theorem chunk_code_join_eq_join_lines (code : List Char) (ml : Nat)
    (h : ml < (splitlines code).length) :
    joinN '\n' ((chunk_code code ml).map Prod.fst) = joinN '\n' (splitlines code) := by
  rw [chunk_code_loop_eq code ml h]
  set st := chunkLoop ml initState (splitlines code) with hst
  have hflat : (st.chunks.map Prod.fst).flatten ++ st.current_chunk = splitlines code := by
    have := chunkLoop_chunkLines ml (splitlines code) initState
    unfold chunkLines at this
    simpa [initState] using this
  have hgood : goodChunks st := chunkLoop_goodChunks ml (splitlines code) initState (by
    intro c hc
    simp [initState] at hc)
  have hcur : st.current_chunk ≠ [] := by
    apply chunkLoop_current_ne
    intro hc
    rw [hc] at h
    exact absurd h (by simp)
  have hmap :
      (((st.chunks ++ [(st.current_chunk, !st.in_block)]).map
          (fun p => (joinN '\n' p.1, p.2))).map Prod.fst)
        = ((st.chunks ++ [(st.current_chunk, !st.in_block)]).map Prod.fst).map (joinN '\n') := by
    simp [List.map_map]
  rw [hmap]
  rw [joinN_flatten '\n' ((st.chunks ++ [(st.current_chunk, !st.in_block)]).map Prod.fst)
    (by
      intro s hs
      simp only [List.map_append, List.mem_append, List.map_cons, List.map_nil,
        List.mem_singleton] at hs
      rcases hs with hs | rfl
      · rcases List.mem_map.mp hs with ⟨c, hc, rfl⟩
        exact (hgood c hc).2
      · exact hcur)]
  rw [List.map_append, List.flatten_append]
  simp only [List.map_cons, List.map_nil, List.flatten_cons, List.flatten_nil,
    List.append_nil]
  rw [hflat]

/-- Helper shared by the lossless-split and identity-engine claims: when the
input equals the `'\n'`-join of its own lines, chunking is lossless. -/
theorem chunk_code_lossless_of_join (code : List Char) (ml : Nat)
    (h : joinN '\n' (splitlines code) = code) :
    joinN '\n' ((chunk_code code ml).map Prod.fst) = code := by
  by_cases hlen : (splitlines code).length ≤ ml
  · unfold chunk_code
    rw [if_pos hlen]
    rfl
  · rw [chunk_code_join_eq_join_lines code ml (not_le.mp hlen), h]

theorem chunk_code_ne_nil (code : List Char) (ml : Nat) : chunk_code code ml ≠ [] := by
  by_cases h : (splitlines code).length ≤ ml
  · unfold chunk_code
    rw [if_pos h]
    simp
  · rw [chunk_code_loop_eq code ml (not_le.mp h)]
    simp

/-!  The Rewrite Orchestrator: `get_code_changes` and `update_file`.
The OpenAI call is abstracted as `engine : List Char → Except ε (List Char)`;
`Except.error` models a raised exception, which in the Python code aborts the
whole loop (lines 210-237) and propagates out of `get_code_changes`
(lines 266-268). -/

/-- The `for i, (chunk, is_complete_block) in enumerate(chunks)` loop of
`get_code_changes` (lines 210-237): one engine call per chunk, each response
stripped (`.strip()`, line 237) and collected in order; a failing call aborts
the whole loop. -/
def processChunks {ε : Type} (engine : List Char → Except ε (List Char)) :
    List (List Char × Bool) → Except ε (List (List Char))
  | [] => Except.ok []
  | c :: rest =>
      match engine c.1 with
      | Except.error e => Except.error e
      | Except.ok v =>
          match processChunks engine rest with
          | Except.error e => Except.error e
          | Except.ok vs => Except.ok (pystrip v :: vs)

/-- `AICoder.get_code_changes` (lines 200-268): chunk with the default
`max_lines = 100`; for more than one chunk, one engine call per chunk, each
result stripped, joined with `'\n'` (line 239); otherwise a single engine
call on the whole code, stripped (line 264). -/
def get_code_changes {ε : Type} (engine : List Char → Except ε (List Char))
    (code : List Char) : Except ε (List Char) :=
  if 1 < (chunk_code code 100).length then
    match processChunks engine (chunk_code code 100) with
    | Except.error e => Except.error e
    | Except.ok ms => Except.ok (joinN '\n' ms)
  else
    match engine code with
    | Except.error e => Except.error e
    | Except.ok v => Except.ok (pystrip v)

/-- `AICoder.update_file` (lines 270-296) viewed as a transformer of the
target file's content: the file is overwritten with the engine result
(line 292) only when `get_code_changes` succeeded; any exception reaches the
`except` clause (lines 294-296) before `write_file` runs, so the content is
unchanged. -/
def update_file {ε : Type} (engine : List Char → Except ε (List Char))
    (content : List Char) : List Char :=
  match get_code_changes engine content with
  | Except.ok modified => modified
  | Except.error _ => content

/-!  The Source Locator: reference classification (`main`, line 356) and
`GitHubAdapter.parse_github_path` (lines 32-59). -/

inductive RefClass where
  | remoteURL : RefClass
  | remoteShort : RefClass
  | localPath : RefClass
deriving DecidableEq, Repr

def githubPrefix : List Char := "https://github.com/".data

/-- The classification the program performs: `main` (line 356) routes to the
GitHub workflow when the reference starts with `https://github.com/` or
contains both `'/'` and `':'` (in any positions); `parse_github_path` then
tries the URL regex before the short-form regex (lines 41-52), so a
URL-prefixed reference is treated as a remote URL and any other remote
reference as short form. -/
def classify_reference (s : List Char) : RefClass :=
  if githubPrefix.isPrefixOf s then RefClass.remoteURL
  else if s.contains '/' && s.contains ':' then RefClass.remoteShort
  else RefClass.localPath

/-- Modelled from the spec: the classification rule exactly as the spec words
it — a remote short-form reference must contain a colon occurring after the
first path separator.  Written from the spec for comparison with
`classify_reference` (the code). -/
def classify_ref_specRule (s : List Char) : RefClass :=
  if githubPrefix.isPrefixOf s then RefClass.remoteURL
  else
    match s.dropWhile (fun c => !(c == '/')) with
    | [] => RefClass.localPath
    | _ :: rest => if rest.contains ':' then RefClass.remoteShort else RefClass.localPath

/-- `if pre.isPrefixOf s`: consume a literal prefix of the regex. -/
def dropLit (pre s : List Char) : Option (List Char) :=
  if pre.isPrefixOf s then some (s.drop pre.length) else none

/-- Regex fragment `([^bad]+)` followed by the literal `bad` delimiter:
the (nonempty) maximal run of non-`bad` characters, then the delimiter.
Deterministic because the character class cannot match the delimiter. -/
def charClassSeg (bad : Char) (s : List Char) : Option (List Char × List Char) :=
  let m := s.takeWhile (fun c => !(c == bad))
  match s.drop m.length with
  | [] => none
  | _ :: rest => if m = [] then none else some (m, rest)

/-- Regex fragment `(.+)$` under `re.match`: a nonempty run of non-newline
characters followed by the end of the string or one final newline
(`$` matches before a trailing newline in Python). -/
def dotPlusEnd (s : List Char) : Option (List Char) :=
  let m := s.takeWhile (fun c => !(c == '\n'))
  if m = [] then none
  else if s.drop m.length = [] ∨ s.drop m.length = ['\n'] then some m else none

/-- The URL regex of `parse_github_path` (line 41):
`https://github\.com/([^/]+)/([^/]+)/blob/([^/]+)/(.+)$`, anchored by
`re.match`. -/
def matchGithubURL (s : List Char) :
    Option (List Char × List Char × List Char × List Char) := do
  let s1 ← dropLit githubPrefix s
  let (owner, s2) ← charClassSeg '/' s1
  let (repo, s3) ← charClassSeg '/' s2
  let s4 ← dropLit "blob/".data s3
  let (branch, s5) ← charClassSeg '/' s4
  let path ← dotPlusEnd s5
  pure (owner, repo, branch, path)

/-- The short-form regex of `parse_github_path` (line 48):
`^([^/]+)/([^/]+)/([^:]+):(.+)$`. -/
def matchGithubShort (s : List Char) :
    Option (List Char × List Char × List Char × List Char) := do
  let (owner, s1) ← charClassSeg '/' s
  let (repo, s2) ← charClassSeg '/' s1
  let (branch, s3) ← charClassSeg ':' s2
  let path ← dotPlusEnd s3
  pure (owner, repo, branch, path)

/-- `GitHubAdapter.parse_github_path` (lines 32-59): URL form first, then
short form; `none` models the `ValueError` raised when neither matches. -/
def parse_github_path (s : List Char) :
    Option (List Char × List Char × List Char × List Char) :=
  match matchGithubURL s with
  | some r => some r
  | none => matchGithubShort s

example :
    parse_github_path "acme/widget/main:src/app.py".data =
      some ("acme".data, "widget".data, "main".data, "src/app.py".data) := by decide
example :
    parse_github_path "https://github.com/acme/widget/blob/main/src/app.py".data =
      some ("acme".data, "widget".data, "main".data, "src/app.py".data) := by decide
example : classify_reference "./a/b.py".data = RefClass.localPath := by decide
example : classify_reference "a:/b".data = RefClass.remoteShort := by decide
example : classify_ref_specRule "a:/b".data = RefClass.localPath := by decide

/-!  Facts about `pystrip` needed for the merge claims. -/

theorem head?_dropWhile_not (p : Char → Bool) (l : List Char) (c : Char)
    (h : (l.dropWhile p).head? = some c) : p c = false := by
  induction l with
  | nil => simp [List.dropWhile] at h
  | cons a l ih =>
      rw [List.dropWhile_cons] at h
      by_cases hp : p a
      · rw [if_pos hp] at h
        exact ih h
      · rw [if_neg hp] at h
        simp at h
        rw [← h]
        exact Bool.of_not_eq_true hp

theorem getLast?_rdropWhile_not (p : Char → Bool) (l : List Char) (c : Char)
    (h : (l.rdropWhile p).getLast? = some c) : p c = false := by
  have hne : l.rdropWhile p ≠ [] := by
    intro hc
    rw [hc] at h
    simp at h
  have hlast := List.rdropWhile_last_not p l hne
  rw [List.getLast?_eq_getLast _ hne] at h
  have := Option.some.inj h
  rw [← this]
  exact Bool.of_not_eq_true hlast

theorem dropWhile_eq_self_of_head? (p : Char → Bool) (l : List Char)
    (h : ∀ c, l.head? = some c → p c = false) : l.dropWhile p = l := by
  cases l with
  | nil => rfl
  | cons a l =>
      rw [List.dropWhile_cons, if_neg (by
        rw [h a rfl]
        simp)]

theorem rdropWhile_eq_self_of_getLast? (p : Char → Bool) (l : List Char)
    (h : ∀ c, l.getLast? = some c → p c = false) : l.rdropWhile p = l := by
  rw [List.rdropWhile_eq_self_iff]
  intro hl
  rw [h (l.getLast hl) (List.getLast?_eq_getLast _ hl)]
  simp

/-- If a string is `strip`-invariant, it is invariant under each one-sided
strip as well. -/
theorem pystrip_eq_self_parts (l : List Char) (h : pystrip l = l) :
    lstrip l = l ∧ l.rdropWhile isPySpace = l := by
  have hsuf : lstrip l <:+ l := List.dropWhile_suffix _
  have hpre : pystrip l <+: lstrip l := List.rdropWhile_prefix _ _
  have hlen1 : (pystrip l).length ≤ (lstrip l).length := hpre.length_le
  have hlen2 : (lstrip l).length ≤ l.length := hsuf.length_le
  rw [h] at hlen1
  have hls : lstrip l = l := hsuf.eq_of_length (le_antisymm hlen2 hlen1)
  refine ⟨hls, ?_⟩
  have : pystrip l = l.rdropWhile isPySpace := by
    unfold pystrip
    rw [hls]
  rw [← this, h]

theorem pystrip_idem (l : List Char) : pystrip (pystrip l) = pystrip l := by
  have h1 : lstrip (pystrip l) = pystrip l := by
    apply dropWhile_eq_self_of_head?
    intro c hc
    have hne : pystrip l ≠ [] := by
      intro hz
      rw [hz] at hc
      simp at hc
    rcases List.rdropWhile_prefix isPySpace (lstrip l) with ⟨t, ht⟩
    have : (lstrip l).head? = some c := by
      rw [show lstrip l = pystrip l ++ t from ht.symm,
        List.head?_append_of_ne_nil _ hne, hc]
    exact head?_dropWhile_not isPySpace l c this
  show (lstrip (pystrip l)).rdropWhile isPySpace = pystrip l
  rw [h1]
  show ((lstrip l).rdropWhile isPySpace).rdropWhile isPySpace = pystrip l
  rw [List.rdropWhile_idempotent]
  rfl

theorem joinN_head? (sep : Char) (p1 : List Char) (rest : List (List Char))
    (h : p1 ≠ []) : (joinN sep (p1 :: rest)).head? = p1.head? := by
  cases rest with
  | nil => rfl
  | cons p2 rest => exact List.head?_append_of_ne_nil _ h

theorem joinN_getLast? (sep : Char) (pieces : List (List Char)) (pk : List Char)
    (hlast : pieces.getLast? = some pk) (hk : pk ≠ []) :
    (joinN sep pieces).getLast? = pk.getLast? := by
  induction pieces with
  | nil => simp at hlast
  | cons p pieces ih =>
      cases pieces with
      | nil =>
          simp at hlast
          rw [hlast]
          rfl
      | cons p2 rest =>
          rw [List.getLast?_cons_cons] at hlast
          have hJ := ih hlast
          have hsome : ∃ c, pk.getLast? = some c := by
            rcases pk with _ | ⟨c0, cs⟩
            · exact absurd rfl hk
            · exact ⟨(c0 :: cs).getLast (by simp), List.getLast?_eq_getLast _ (by simp)⟩
          rcases hsome with ⟨c, hcs⟩
          show ((p ++ sep :: joinN sep (p2 :: rest))).getLast? = pk.getLast?
          rw [List.getLast?_append]
          rcases hJe : joinN sep (p2 :: rest) with _ | ⟨j, js⟩
          · rw [hJe, hcs] at hJ
            exact Option.noConfusion hJ
          · rw [hJe] at hJ
            rw [List.getLast?_cons_cons, hJ, hcs]
            rfl

/-- Joining nonempty `strip`-invariant pieces with `'\n'` gives a
`strip`-invariant result. -/
theorem pystrip_joinN (pieces : List (List Char)) (hne : pieces ≠ [])
    (h : ∀ q ∈ pieces, pystrip q = q ∧ q ≠ []) :
    pystrip (joinN '\n' pieces) = joinN '\n' pieces := by
  rcases pieces with _ | ⟨p1, rest⟩
  · exact absurd rfl hne
  have hp1 := h p1 (by simp)
  have hlastEx : ∃ pk, (p1 :: rest).getLast? = some pk := by
    rcases hgl : (p1 :: rest).getLast? with _ | pk
    · rw [List.getLast?_eq_getLast _ (by simp)] at hgl
      simp at hgl
    · exact ⟨pk, rfl⟩
  rcases hlastEx with ⟨pk, hpk⟩
  have hpkmem : pk ∈ p1 :: rest := by
    have hgl := List.getLast?_eq_getLast (p1 :: rest) (by simp)
    rw [hgl] at hpk
    rw [← Option.some.inj hpk]
    exact List.getLast_mem _
  have hpkprops := h pk hpkmem
  have hhead : lstrip (joinN '\n' (p1 :: rest)) = joinN '\n' (p1 :: rest) := by
    apply dropWhile_eq_self_of_head?
    intro c hc
    rw [joinN_head? '\n' p1 rest hp1.2] at hc
    have hl1 := (pystrip_eq_self_parts p1 hp1.1).1
    apply head?_dropWhile_not isPySpace p1 c
    show (lstrip p1).head? = some c
    rw [hl1]
    exact hc
  have hlast : (joinN '\n' (p1 :: rest)).rdropWhile isPySpace = joinN '\n' (p1 :: rest) := by
    apply rdropWhile_eq_self_of_getLast?
    intro c hc
    rw [joinN_getLast? '\n' (p1 :: rest) pk hpk hpkprops.2] at hc
    have hr := (pystrip_eq_self_parts pk hpkprops.1).2
    apply getLast?_rdropWhile_not isPySpace pk c
    rw [hr]
    exact hc
  show (lstrip (joinN '\n' (p1 :: rest))).rdropWhile isPySpace = joinN '\n' (p1 :: rest)
  rw [hhead, hlast]

/-!  Facts about `processChunks`. -/

theorem processChunks_ok_of_id {ε : Type} (engine : List Char → Except ε (List Char))
    (hid : ∀ s, engine s = Except.ok s) (chunks : List (List Char × Bool)) :
    processChunks engine chunks = Except.ok (chunks.map (fun c => pystrip c.1)) := by
  induction chunks with
  | nil => rfl
  | cons c rest ih => simp only [processChunks, hid, ih, List.map_cons]

theorem processChunks_ok_length {ε : Type} (engine : List Char → Except ε (List Char))
    (chunks : List (List Char × Bool)) (ms : List (List Char))
    (h : processChunks engine chunks = Except.ok ms) : ms.length = chunks.length := by
  induction chunks generalizing ms with
  | nil =>
      rw [show processChunks engine [] = Except.ok [] from rfl] at h
      rw [← Except.ok.inj h]
      rfl
  | cons c rest ih =>
      rw [processChunks] at h
      rcases he : engine c.1 with e | v
      · rw [he] at h
        exact Except.noConfusion h
      · rw [he] at h
        rcases hr : processChunks engine rest with e | vs
        · rw [hr] at h
          exact Except.noConfusion h
        · rw [hr] at h
          rw [← Except.ok.inj h, List.length_cons, List.length_cons, ih vs hr]

theorem processChunks_ok_mem {ε : Type} (engine : List Char → Except ε (List Char))
    (chunks : List (List Char × Bool)) (ms : List (List Char))
    (h : processChunks engine chunks = Except.ok ms) :
    ∀ m ∈ ms, ∃ c ∈ chunks, ∃ v, engine c.1 = Except.ok v ∧ m = pystrip v := by
  induction chunks generalizing ms with
  | nil =>
      rw [show processChunks engine [] = Except.ok [] from rfl] at h
      rw [← Except.ok.inj h]
      intro m hm
      simp at hm
  | cons c rest ih =>
      rw [processChunks] at h
      rcases he : engine c.1 with e | v
      · rw [he] at h
        exact Except.noConfusion h
      · rw [he] at h
        rcases hr : processChunks engine rest with e | vs
        · rw [hr] at h
          exact Except.noConfusion h
        · rw [hr] at h
          rw [← Except.ok.inj h]
          intro m hm
          rcases List.mem_cons.mp hm with rfl | hm
          · exact ⟨c, by simp, v, he, rfl⟩
          · rcases ih vs hr m hm with ⟨c', hc', v', hv', rfl⟩
            exact ⟨c', List.mem_cons_of_mem c hc', v', hv', rfl⟩

/-!  Facts about where a cut can happen. -/

theorem maybeCut_changed (ml i : Nat) (st : ChunkState)
    (h : (maybeCut ml i st).chunks ≠ st.chunks) :
    ml ≤ st.line_count ∧ st.in_block = false ∧ i ≤ st.current_indent ∧
      (maybeCut ml i st).chunks = st.chunks ++ [(st.current_chunk, true)] := by
  unfold maybeCut at h ⊢
  split_ifs at h ⊢ with h1 h2
  · exact absurd rfl h
  · exact ⟨h1.1, h1.2.1, h1.2.2, rfl⟩
  · exact absurd rfl h

theorem processLine_chunks_blank (ml : Nat) (st : ChunkState) (line : List Char)
    (hb : lstrip line = []) : (processLine ml st line).chunks = st.chunks := by
  unfold processLine
  rw [if_pos hb]

theorem processLine_chunks_eq (ml : Nat) (st : ChunkState) (line : List Char)
    (hb : lstrip line ≠ []) :
    (processLine ml st line).chunks = (maybeCut ml (indentOf line) st).chunks := by
  unfold processLine
  rw [if_neg hb]
  exact trackBlock_chunks _ _ _

/-!  Claim theorems. -/

/-- Claim C1, counterexample: the split is not byte-lossless for every input.
For the input `"a\nb\n"` (which ends in a newline) and `max_lines = 1`,
`splitlines` drops the trailing newline, so joining the segments with `'\n'`
yields `"a\nb"`, not the original text. -/
theorem lossless_split_counterexample :
    joinN '\n' ((chunk_code "a\nb\n".data 1).map Prod.fst) = "a\nb".data ∧
    "a\nb".data ≠ "a\nb\n".data := by
  exact ⟨by decide, by decide⟩

/-- Claim C1 (amended): for every input text that equals the `'\n'`-join of
its own lines (no trailing line boundary and only bare `'\n'` separators) and
every `max_lines`, concatenating the texts of all segments returned by
`chunk_code`, in order, with a single newline between consecutive segments,
reproduces the input exactly. -/
theorem lossless_split_amended (code : List Char) (max_lines : Nat)
    (h : joinN '\n' (splitlines code) = code) :
    joinN '\n' ((chunk_code code max_lines).map Prod.fst) = code :=
  chunk_code_lossless_of_join code max_lines h

theorem lossless_split_amended_witness :
    joinN '\n' (splitlines "a\nb".data) = "a\nb".data ∧
    joinN '\n' ((chunk_code "a\nb".data 1).map Prod.fst) = "a\nb".data :=
  ⟨by decide, lossless_split_amended "a\nb".data 1 (by decide)⟩

/-- Claim C2, counterexample: the identity-engine round trip is not exact for
every input.  For the single-segment input `" x"` the engine response is
stripped (line 264 of the source), so the result is `"x"`, not `" x"`. -/
theorem identity_round_trip_counterexample :
    get_code_changes (fun s => (Except.ok s : Except Unit (List Char))) " x".data =
      Except.ok "x".data ∧
    "x".data ≠ " x".data := by
  exact ⟨rfl, by decide⟩

/-- Claim C2 (amended): for every input whose segment texts are unchanged by
whitespace-stripping and which equals the `'\n'`-join of its own lines, an
identity engine makes `get_code_changes` return the original input exactly
(per-segment results joined with a single newline). -/
theorem identity_round_trip_amended {ε : Type} (engine : List Char → Except ε (List Char))
    (code : List Char)
    (hid : ∀ s, engine s = Except.ok s)
    (h1 : ∀ c ∈ chunk_code code 100, pystrip c.1 = c.1)
    (h2 : joinN '\n' (splitlines code) = code) :
    get_code_changes engine code = Except.ok code := by
  unfold get_code_changes
  by_cases hlen : 1 < (chunk_code code 100).length
  · rw [if_pos hlen, processChunks_ok_of_id engine hid (chunk_code code 100)]
    show Except.ok (joinN '\n' ((chunk_code code 100).map (fun c => pystrip c.1))) =
      Except.ok code
    have hmap : (chunk_code code 100).map (fun c => pystrip c.1)
        = (chunk_code code 100).map Prod.fst :=
      List.map_congr_left (fun c hc => h1 c hc)
    rw [hmap, chunk_code_lossless_of_join code 100 h2]
  · rw [if_neg hlen, hid code]
    show Except.ok (pystrip code) = Except.ok code
    have hz : (chunk_code code 100).length ≠ 0 := by
      intro hz
      exact chunk_code_ne_nil code 100 (List.length_eq_zero.mp hz)
    have hone : (chunk_code code 100).length = 1 := by omega
    rcases List.length_eq_one.mp hone with ⟨c, hc⟩
    have hcode : c.1 = code := by
      have hj := chunk_code_lossless_of_join code 100 h2
      rw [hc] at hj
      simpa [joinN] using hj
    have hstrip := h1 c (by rw [hc]; exact List.mem_singleton_self c)
    rw [hcode] at hstrip
    rw [hstrip]

theorem identity_round_trip_amended_witness :
    (∀ c ∈ chunk_code "x".data 100, pystrip c.1 = c.1) ∧
    joinN '\n' (splitlines "x".data) = "x".data ∧
    get_code_changes (fun s => (Except.ok s : Except Unit (List Char))) "x".data =
      Except.ok "x".data :=
  ⟨by decide, by decide,
    identity_round_trip_amended _ "x".data (fun _ => rfl) (by decide) (by decide)⟩

/-- Claim C3, counterexample: it is not true that every non-final segment's
last line has indentation at most the reference indentation recorded for its
block.  For `"a:\nb\n    c\nd"` with `max_lines = 2` the chunker produces two
segments; the cut ending the first segment fires while processing the fourth
line, when the reference indentation (`current_indent`) is `0`, yet the first
segment's last line `"    c"` has indentation `4`. -/
theorem boundary_safety_counterexample :
    chunk_code "a:\nb\n    c\nd".data 2 =
      [("a:\nb\n    c".data, true), ("d".data, true)] ∧
    (splitlines "a:\nb\n    c".data).getLast? = some "    c".data ∧
    indentOf "    c".data = 4 ∧
    (chunkLoop 2 initState ((splitlines "a:\nb\n    c\nd".data).take 3)).current_indent = 0 ∧
    ¬(4 ≤ 0) := by
  exact ⟨by decide, by decide, by decide, by decide, by decide⟩

/-- Claim C3 (amended): a cut is made only when the buffered line count has
reached `max_lines`, no block is currently open, and the candidate line's
indentation is at most the reference indentation; the cut emits the buffered
segment flagged complete.  (The last line already inside the buffer may be
deeper than the reference indentation; only the candidate line is
constrained.) -/
theorem boundary_safety_amended (ml : Nat) (st : ChunkState) (line : List Char)
    (h : (processLine ml st line).chunks ≠ st.chunks) :
    ml ≤ st.line_count ∧ st.in_block = false ∧ indentOf line ≤ st.current_indent ∧
      (processLine ml st line).chunks = st.chunks ++ [(st.current_chunk, true)] := by
  by_cases hb : lstrip line = []
  · exact absurd (processLine_chunks_blank ml st line hb) h
  · rw [processLine_chunks_eq ml st line hb] at h ⊢
    exact maybeCut_changed ml (indentOf line) st h

theorem boundary_safety_amended_witness :
    (processLine 1 (ChunkState.mk [] ["a".data] 0 false 1) "b".data).chunks ≠
      (ChunkState.mk [] ["a".data] 0 false 1).chunks ∧
    (1 ≤ (ChunkState.mk [] ["a".data] 0 false 1).line_count ∧
      (ChunkState.mk [] ["a".data] 0 false 1).in_block = false ∧
      indentOf "b".data ≤ (ChunkState.mk [] ["a".data] 0 false 1).current_indent ∧
      (processLine 1 (ChunkState.mk [] ["a".data] 0 false 1) "b".data).chunks =
        (ChunkState.mk [] ["a".data] 0 false 1).chunks ++
          [((ChunkState.mk [] ["a".data] 0 false 1).current_chunk, true)]) :=
  ⟨by decide, boundary_safety_amended 1 (ChunkState.mk [] ["a".data] 0 false 1) "b".data
    (by decide)⟩

/-- Claim C4, counterexample: the code does not require the colon to occur
after the first path separator.  The reference `"a:/b"` has its colon before
the first `'/'`: the spec's rule classifies it as a local path, but the code
(`'/' in file_path and ':' in file_path`, line 356) routes it as a remote
short-form reference. -/
theorem reference_classification_counterexample :
    classify_reference "a:/b".data = RefClass.remoteShort ∧
    classify_ref_specRule "a:/b".data = RefClass.localPath ∧
    RefClass.remoteShort ≠ RefClass.localPath := by
  exact ⟨by decide, by decide, by decide⟩

/-- Claim C4 (amended): a reference beginning with `https://github.com/` is
treated as a remote URL; otherwise a reference containing both a path
separator and a colon — in any positions — is treated as a remote short-form
reference; otherwise it is a local path.  The three examples classify and
parse as the claim states. -/
theorem reference_classification_amended :
    (∀ s : List Char, githubPrefix.isPrefixOf s = true →
      classify_reference s = RefClass.remoteURL) ∧
    (∀ s : List Char, githubPrefix.isPrefixOf s = false →
      classify_reference s =
        (if s.contains '/' && s.contains ':' then RefClass.remoteShort
         else RefClass.localPath)) ∧
    classify_reference "./a/b.py".data = RefClass.localPath ∧
    classify_reference "acme/widget/main:src/app.py".data = RefClass.remoteShort ∧
    parse_github_path "acme/widget/main:src/app.py".data =
      some ("acme".data, "widget".data, "main".data, "src/app.py".data) ∧
    classify_reference "https://github.com/acme/widget/blob/main/src/app.py".data =
      RefClass.remoteURL ∧
    parse_github_path "https://github.com/acme/widget/blob/main/src/app.py".data =
      some ("acme".data, "widget".data, "main".data, "src/app.py".data) := by
  refine ⟨?_, ?_, by decide, by decide, by decide, by decide, by decide⟩
  · intro s hs
    unfold classify_reference
    rw [if_pos hs]
  · intro s hs
    unfold classify_reference
    rw [if_neg (by rw [hs]; exact Bool.false_ne_true)]

theorem reference_classification_amended_witness :
    classify_reference "https://github.com/x".data = RefClass.remoteURL ∧
    classify_reference "a/b:c".data =
      (if ("a/b:c".data).contains '/' && ("a/b:c".data).contains ':' then
        RefClass.remoteShort else RefClass.localPath) :=
  ⟨reference_classification_amended.1 "https://github.com/x".data (by decide),
   reference_classification_amended.2.1 "a/b:c".data (by decide)⟩

/-- Claim C5: for every input whose line count is at most `max_lines` —
including an input with zero lines — `chunk_code` returns exactly one
segment, equal to the whole input text, flagged complete. -/
theorem no_op_stability (code : List Char) (max_lines : Nat)
    (h : (splitlines code).length ≤ max_lines) :
    chunk_code code max_lines = [(code, true)] := by
  unfold chunk_code
  rw [if_pos h]

theorem no_op_stability_witness :
    ((splitlines ([] : List Char)).length ≤ 3 ∧ chunk_code [] 3 = [([], true)]) ∧
    ((splitlines "a\nb".data).length ≤ 2 ∧
      chunk_code "a\nb".data 2 = [("a\nb".data, true)]) :=
  ⟨⟨by decide, no_op_stability [] 3 (by decide)⟩,
   ⟨by decide, no_op_stability "a\nb".data 2 (by decide)⟩⟩

/-- Claim C6: in every chunked run (`max_lines <` number of lines) the final
buffered segment is emitted even though it need not have reached `max_lines`,
and it is the state's buffer flagged `not in_block`: complete iff the
open-block flag is false at end of input. -/
theorem final_segment_flag (code : List Char) (ml : Nat)
    (h : ml < (splitlines code).length) :
    (chunkLoop ml initState (splitlines code)).current_chunk ≠ [] ∧
    chunk_code code ml =
      ((chunkLoop ml initState (splitlines code)).chunks
        ++ [((chunkLoop ml initState (splitlines code)).current_chunk,
             !(chunkLoop ml initState (splitlines code)).in_block)]).map
        (fun p => (joinN '\n' p.1, p.2)) := by
  constructor
  · apply chunkLoop_current_ne
    intro hc
    rw [hc] at h
    exact absurd h (by simp)
  · exact chunk_code_loop_eq code ml h

theorem final_segment_flag_witness :
    1 < (splitlines "a\nb".data).length ∧
    ((chunkLoop 1 initState (splitlines "a\nb".data)).current_chunk ≠ [] ∧
      chunk_code "a\nb".data 1 =
        ((chunkLoop 1 initState (splitlines "a\nb".data)).chunks
          ++ [((chunkLoop 1 initState (splitlines "a\nb".data)).current_chunk,
               !(chunkLoop 1 initState (splitlines "a\nb".data)).in_block)]).map
          (fun p => (joinN '\n' p.1, p.2))) :=
  ⟨by decide, final_segment_flag "a\nb".data 1 (by decide)⟩

/-- Claim C7: if the change engine fails during `update_file` — modelled as
`get_code_changes` returning an error — the target file's content is
unchanged: the `except` clause is reached before `write_file` runs. -/
theorem engine_failure_atomic {ε : Type} (engine : List Char → Except ε (List Char))
    (content : List Char) (e : ε)
    (h : get_code_changes engine content = Except.error e) :
    update_file engine content = content := by
  unfold update_file
  rw [h]

theorem engine_failure_atomic_witness :
    get_code_changes (fun _ => (Except.error () : Except Unit (List Char))) "x".data =
      Except.error () ∧
    update_file (fun _ => (Except.error () : Except Unit (List Char))) "x".data = "x".data :=
  ⟨rfl, engine_failure_atomic _ "x".data () rfl⟩

set_option maxRecDepth 100000 in
/-- Claim C8, counterexample: the merged output of `get_code_changes` can end
in a newline (trailing whitespace).  On a 101-line input the chunker yields
two segments; an engine whose response for the last segment strips to the
empty string makes the join `'\n'.join(...)` end with the separator. -/
theorem stripped_output_counterexample :
    get_code_changes
        (fun s => (Except.ok (if s = "a".data then " ".data else s) :
          Except Unit (List Char)))
        (joinN '\n' (List.replicate 101 "a".data)) =
      Except.ok (joinN '\n' (List.replicate 100 "a".data) ++ ['\n']) ∧
    (joinN '\n' (List.replicate 100 "a".data) ++ ['\n']).getLast? = some '\n' ∧
    isPySpace '\n' = true := by
  exact ⟨rfl, by simp, by decide⟩

/-- Claim C8 (amended): each engine response is whitespace-stripped before
being returned or merged, so whenever every engine response used in a
successful `get_code_changes` run strips to a nonempty string, the returned
value has no leading and no trailing whitespace; in particular it never ends
with a newline. -/
theorem stripped_output_amended {ε : Type} (engine : List Char → Except ε (List Char))
    (code r : List Char)
    (hok : get_code_changes engine code = Except.ok r)
    (hne : ∀ c ∈ chunk_code code 100, ∀ v, engine c.1 = Except.ok v → pystrip v ≠ []) :
    pystrip r = r ∧ r.getLast? ≠ some '\n' := by
  have hmain : pystrip r = r := by
    unfold get_code_changes at hok
    by_cases hlen : 1 < (chunk_code code 100).length
    · rw [if_pos hlen] at hok
      rcases hp : processChunks engine (chunk_code code 100) with e | ms
      · rw [hp] at hok
        exact Except.noConfusion hok
      · rw [hp] at hok
        have hr : r = joinN '\n' ms := (Except.ok.inj hok).symm
        subst hr
        apply pystrip_joinN
        · have hlms := processChunks_ok_length engine _ ms hp
          intro hzz
          rw [hzz] at hlms
          simp at hlms
          omega
        · intro q hq
          rcases processChunks_ok_mem engine _ ms hp q hq with ⟨c, hc, v, hv, rfl⟩
          exact ⟨pystrip_idem v, hne c hc v hv⟩
    · rw [if_neg hlen] at hok
      rcases he : engine code with e | v
      · rw [he] at hok
        exact Except.noConfusion hok
      · rw [he] at hok
        rw [← Except.ok.inj hok]
        exact pystrip_idem v
  refine ⟨hmain, ?_⟩
  intro hlastnl
  have hparts := (pystrip_eq_self_parts r hmain).2
  have hnl := getLast?_rdropWhile_not isPySpace r '\n' (by rw [hparts]; exact hlastnl)
  have hsp : isPySpace '\n' = true := by decide
  rw [hnl] at hsp
  exact Bool.noConfusion hsp

theorem stripped_output_amended_witness :
    get_code_changes (fun s => (Except.ok s : Except Unit (List Char))) "x".data =
      Except.ok "x".data ∧
    (pystrip "x".data = "x".data ∧ ("x".data).getLast? ≠ some '\n') :=
  ⟨rfl,
    stripped_output_amended (fun s => (Except.ok s : Except Unit (List Char)))
      "x".data "x".data rfl (by
      intro c hc v hv
      have hch : chunk_code "x".data 100 = [("x".data, true)] := by decide
      rw [hch] at hc
      rcases List.mem_singleton.mp hc with rfl
      rw [← Except.ok.inj hv]
      decide)⟩

/-- Claim C9: `max_lines` is only a cut threshold, not an upper bound on
segment size.  For `"a:\n\n    b\nc\nd"` with `max_lines = 1` the first
segment holds four lines: the blank second line is buffered without
incrementing the line counter, and while the block opened by `"a:"` is open
the cut is deferred even though the counter has reached the threshold. -/
theorem max_lines_only_a_threshold :
    chunk_code "a:\n\n    b\nc\nd".data 1 =
      [("a:\n\n    b\nc".data, true), ("d".data, true)] ∧
    1 < (splitlines "a:\n\n    b\nc".data).length ∧
    (chunkLoop 1 initState ((splitlines "a:\n\n    b\nc\nd".data).take 2)).line_count = 1 ∧
    (chunkLoop 1 initState ((splitlines "a:\n\n    b\nc\nd".data).take 4)).chunks = [] := by
  exact ⟨by decide, by decide, by decide, by decide⟩

/-- Claim C10: every non-final segment emitted by `chunk_code` is flagged
complete; only the last segment of the returned list can carry a partial
flag. -/
theorem nonfinal_segments_complete (code : List Char) (ml : Nat)
    (seg : List Char × Bool) (h : seg ∈ (chunk_code code ml).dropLast) :
    seg.2 = true := by
  by_cases hlen : (splitlines code).length ≤ ml
  · unfold chunk_code at h
    rw [if_pos hlen] at h
    simp at h
  · rw [chunk_code_loop_eq code ml (not_le.mp hlen)] at h
    rw [List.map_append] at h
    simp only [List.map_cons, List.map_nil] at h
    rw [List.dropLast_concat] at h
    rcases List.mem_map.mp h with ⟨c, hc, rfl⟩
    exact (chunkLoop_goodChunks ml (splitlines code) initState
      (by intro c0 hc0; simp [initState] at hc0) c hc).1

theorem nonfinal_segments_complete_witness :
    ("a".data, true) ∈ (chunk_code "a\nb".data 1).dropLast ∧
    (("a".data, true) : List Char × Bool).2 = true :=
  ⟨by decide, nonfinal_segments_complete "a\nb".data 1 ("a".data, true) (by decide)⟩

end AICoder
